import Mathlib

/-!
Shallow embedding of the ranking-quality evaluation engine of
`Scripts/analysis.py` (functions `ndcg_at_k` and `spearman_ds`).

Modelling conventions:

* Numeric data values (the `actual` and `predicted` columns) are rationals;
  the scores, which divide by `math.log2`, live in `ℝ`.  Python floats are
  idealised as exact arithmetic.
* A pandas `DataFrame` with the two columns addressed by `actual_col` and
  `pred_col` is a `List Row`; the positional column indices of the source are
  modelled by the two named fields.  The `'binned'` column that
  `ndcg_at_k` writes when `bins=True` is the `binned` field (`none` = column
  absent, which is how a caller's fresh frame arrives).
* `ds.sort_values(by=c)` is modelled by a stable ascending sort on the key
  `c`.  For `sort_values(by=c, ascending=False)`,
  `pandas.core.sorting.nargsort` reverses the value array and the index
  array, takes an ascending argsort, and reverses the resulting indexer
  again; with a stable argsort the double reversal yields the descending
  order with tied rows in their original relative order.  numpy's default
  argsort is not stable in general, but is an insertion sort (hence stable)
  on small arrays; the model fixes the stable behaviour, so the descending
  sort is modelled as the reverse of a stable ascending sort of the
  reversed row list.
* Failures of the Python code (IndexError from `y_pred[i]` or `score[-1]`,
  ValueError from `pd.cut` when the quantile bin edges do not strictly
  increase) are modelled with `Except`.
-/

/-- One row of the analysed dataset: the ground-truth efficiency
(`actual_col`), the model prediction (`pred_col`), and the `'binned'` column
written by `ndcg_at_k` when `bins=True` (`none` when the column is absent). -/
structure Row where
  actual : ℚ
  predicted : ℚ
  binned : Option ℚ
deriving DecidableEq

/-- Errors surfaced by the Python code. -/
inductive PyErr where
  | indexError : PyErr
  | valueError : PyErr
deriving DecidableEq

/-- Result of `ndcg_at_k`: the final score (`multiple=False`) or the pair of
the score list and the index list (`multiple=True`). -/
inductive NdcgResult where
  | single (v : ℝ) : NdcgResult
  | curve (score : List ℝ) (thr : List ℕ) : NdcgResult

/-- Row comparison by the `actual` column. -/
def rowLeActual (a b : Row) : Prop := a.actual ≤ b.actual

/-- Row comparison by the `predicted` column. -/
def rowLePred (a b : Row) : Prop := a.predicted ≤ b.predicted

instance : DecidableRel rowLeActual :=
  fun a b => inferInstanceAs (Decidable (a.actual ≤ b.actual))

instance : DecidableRel rowLePred :=
  fun a b => inferInstanceAs (Decidable (a.predicted ≤ b.predicted))

instance : IsTotal Row rowLeActual := ⟨fun a b => le_total a.actual b.actual⟩

instance : IsTotal Row rowLePred := ⟨fun a b => le_total a.predicted b.predicted⟩

instance : IsTrans Row rowLeActual := ⟨fun _ _ _ h h' => le_trans h h'⟩

instance : IsTrans Row rowLePred := ⟨fun _ _ _ h h' => le_trans h h'⟩

/-- `ds.sort_values(by=actual_col)` (ascending). -/
def sortAscByActual (ds : List Row) : List Row := List.insertionSort rowLeActual ds

/-- `ds.sort_values(by=pred_col, ascending=False)`: `nargsort` reverses the
values and indices, takes a stable ascending argsort, and reverses the
indexer again (`non_nans = non_nans[::-1]; non_nan_idx = non_nan_idx[::-1];
indexer = non_nan_idx[non_nans.argsort(kind=kind)]; indexer =
indexer[::-1]`), so tied rows keep their original relative order. -/
def sortDescByPred (ds : List Row) : List Row :=
  (List.insertionSort rowLePred ds.reverse).reverse

/-- `sorted(y_pred, reverse=True)`: the values of `y_pred` in descending
order. -/
def sortValsDesc (l : List ℚ) : List ℚ := List.insertionSort (· ≥ ·) l

/-- Ascending sort of a value list (used to state properties of the baseline
ordering). -/
def sortValsAsc (l : List ℚ) : List ℚ := List.insertionSort (· ≤ ·) l

/-- `Series.quantile(q)` with the default linear interpolation:
with `s` the sorted values and `h = q*(n-1)`, the result is
`s[⌊h⌋] + (h - ⌊h⌋) * (s[⌊h⌋+1] - s[⌊h⌋])`.  (pandas returns NaN on an empty
series; the `0` default is unreachable from the claims.) -/
def quantileOf (xs : List ℚ) (q : ℚ) : ℚ :=
  let s := sortValsAsc xs
  let n := s.length
  if n = 0 then 0
  else
    let h : ℚ := q * ((n : ℚ) - 1)
    let i : ℕ := (⌊h⌋).toNat
    let lo := s.getD i 0
    lo + (h - (i : ℚ)) * (s.getD (i + 1) lo - lo)

/-- The bin edges `ds.iloc[:, actual_col-1].quantile([0.0, 0.20, 0.40, 0.60,
0.80, 1.0])`. -/
def binEdges (ds : List Row) : List ℚ :=
  [0, 0.20, 0.40, 0.60, 0.80, 1.0].map (quantileOf (ds.map Row.actual))

/-- `pd.cut(x, bins, labels=[0,1,2,3,4], include_lowest=True)` for one value:
the first interval is closed on both ends, the others are left-open
right-closed.  `none` models pandas' NaN for a value outside every interval
(unreachable here because the edges span the column's own min and max). -/
def cutGrade (edges : List ℚ) (x : ℚ) : Option ℚ :=
  if edges.getD 0 0 ≤ x ∧ x ≤ edges.getD 1 0 then some 0
  else if edges.getD 1 0 < x ∧ x ≤ edges.getD 2 0 then some 1
  else if edges.getD 2 0 < x ∧ x ≤ edges.getD 3 0 then some 2
  else if edges.getD 3 0 < x ∧ x ≤ edges.getD 4 0 then some 3
  else if edges.getD 4 0 < x ∧ x ≤ edges.getD 5 0 then some 4
  else none

/-- Write the `'binned'` column on every row; a value in no bin (pandas NaN,
unreachable) is reported as a `valueError`. -/
def cutRows (edges : List ℚ) : List Row → Except PyErr (List Row)
  | [] => Except.ok []
  | r :: rs =>
    match cutGrade edges r.actual with
    | some g =>
      match cutRows edges rs with
      | Except.ok rest => Except.ok ({ r with binned := some g } :: rest)
      | Except.error e => Except.error e
    | none => Except.error PyErr.valueError

/-- The `bins == True` preamble: `ds['binned'] = pd.cut(ds.iloc[:,
actual_col-1], bins, labels=[0,1,2,3,4], include_lowest=True)` where `bins`
are the quantile edges.  `pd.cut` raises `ValueError: bins must increase
monotonically` when the edges are not strictly increasing. -/
def applyCut (ds : List Row) : Except PyErr (List Row) :=
  let edges := binEdges ds
  if edges.Chain' (· < ·) then cutRows edges ds
  else Except.error PyErr.valueError

/-- The relevance sequence `y_pred` of the `bins == False` branch:
`reverse=True` sorts by the actual column ascending, otherwise by the
predicted column descending; either way the actual column is extracted. -/
def relSeq (ds : List Row) (reverse : Bool) : List ℚ :=
  if reverse then (sortAscByActual ds).map Row.actual
  else (sortDescByPred ds).map Row.actual

/-- The relevance sequence `y_pred` of the `bins == True` branch: the same
two sorts, but the `'binned'` column is extracted.  (`getD 0` is unreachable:
the binning step sets `binned` on every row.) -/
def relSeqBinned (ds : List Row) (reverse : Bool) : List ℚ :=
  if reverse then (sortAscByActual ds).map (fun r => r.binned.getD 0)
  else (sortDescByPred ds).map (fun r => r.binned.getD 0)

/-- State of the accumulation loop: the running gains `a` and `b` and the
lists `thr` and `score`. -/
structure LoopState where
  a : ℝ
  b : ℝ
  thr : List ℕ
  score : List ℝ

/-- The loop `for i in range(0, k)` of `ndcg_at_k`: after `k` iterations,
`a` and `b` hold the accumulated discounted gains of `y` and `Y`, `thr` the
iteration indices, and `score` the per-prefix scores with the
zero-denominator guard `if not b: score.append(0)`.  Reading `y[i]` or `Y[i]`
out of range is Python's IndexError. -/
noncomputable def ndcgLoop (y Y : List ℚ) : ℕ → Except PyErr LoopState
  | 0 => Except.ok ⟨0, 0, [], []⟩
  | k + 1 =>
    match ndcgLoop y Y k with
    | Except.error e => Except.error e
    | Except.ok s =>
      if h : k < y.length ∧ k < Y.length then
        let a := s.a + ((y.get ⟨k, h.1⟩ : ℚ) : ℝ) / Real.logb 2 ((k : ℝ) + 2)
        let b := s.b + ((Y.get ⟨k, h.2⟩ : ℚ) : ℝ) / Real.logb 2 ((k : ℝ) + 2)
        Except.ok ⟨a, b, s.thr ++ [k], s.score ++ [if b = 0 then 0 else a / b]⟩
      else Except.error PyErr.indexError

/-- The tail of `ndcg_at_k` after `y_pred` has been produced: build the ideal
ordering `Y_test`, run the loop, and return either the curve
(`multiple=True`) or `score[-1]`, which raises IndexError on an empty
list. -/
noncomputable def ndcgCore (y : List ℚ) (k : ℤ) (multiple : Bool) :
    Except PyErr NdcgResult :=
  match ndcgLoop y (sortValsDesc y) k.toNat with
  | Except.error e => Except.error e
  | Except.ok s =>
    if multiple then Except.ok (NdcgResult.curve s.score s.thr)
    else
      match s.score.getLast? with
      | some v => Except.ok (NdcgResult.single v)
      | none => Except.error PyErr.indexError

/-- `ndcg_at_k(ds, k, actual_col, pred_col, bins, reverse, multiple)`.
The second component is the caller's frame after the call: `ds['binned'] = …`
mutates the caller's `DataFrame` in place when `bins=True` (and only then;
`sort_values` returns a new frame), so the frame state is returned alongside
the result.  When `pd.cut` raises, the assignment never happens and the frame
is unchanged. -/
noncomputable def ndcg_at_k (ds : List Row) (k : ℤ)
    (bins reverse multiple : Bool) : Except PyErr NdcgResult × List Row :=
  if bins then
    match applyCut ds with
    | Except.error e => (Except.error e, ds)
    | Except.ok ds' => (ndcgCore (relSeqBinned ds' reverse) k multiple, ds')
  else (ndcgCore (relSeq ds reverse) k multiple, ds)

/-- Closed-form discounted cumulative gain of the first `i` entries of `y`
(`Σ_{j<i} y[j] / log2(j+2)`), matching the spec's GainAccumulator contract. -/
noncomputable def dcgAt (y : List ℚ) (i : ℕ) : ℝ :=
  ∑ j ∈ Finset.range i, ((y.getD j 0 : ℚ) : ℝ) / Real.logb 2 ((j : ℝ) + 2)

/-- Closed form of the `score` list after `k` iterations of the loop. -/
noncomputable def scoreList (y Y : List ℚ) (k : ℕ) : List ℝ :=
  (List.range k).map fun i =>
    if dcgAt Y (i + 1) = 0 then 0 else dcgAt y (i + 1) / dcgAt Y (i + 1)

/-- Scores carried by an `ndcg_at_k` result (the singleton list in scalar
mode). -/
def resScoresOf : Except PyErr NdcgResult → List ℝ
  | Except.ok (NdcgResult.single v) => [v]
  | Except.ok (NdcgResult.curve s _) => s
  | Except.error _ => []

/-- Index list carried by an `ndcg_at_k` curve-mode result. -/
def resThrOf : Except PyErr NdcgResult → List ℕ
  | Except.ok (NdcgResult.curve _ t) => t
  | _ => []

/-- Whether an `ndcg_at_k` call raised `ValueError`. -/
def isValueError : Except PyErr NdcgResult → Bool
  | Except.error PyErr.valueError => true
  | _ => false

/-- Whether an `ndcg_at_k` call returned normally. -/
def isOkResult : Except PyErr NdcgResult → Bool
  | Except.ok _ => true
  | _ => false

/-- Average rank (`scipy.stats.rankdata`, `method='average'`) of the value
`x` within the sequence `xs`: midpoint of the 1-based positions its tie group
occupies. -/
def rankAvg (xs : List ℚ) (x : ℚ) : ℚ :=
  ((xs.countP (fun v => v < x) : ℕ) : ℚ) +
    (((xs.countP (fun v => v = x) : ℕ) : ℚ) + 1) / 2

/-- The rank vector of a sequence. -/
def ranksOf (xs : List ℚ) : List ℚ := xs.map (rankAvg xs)

/-- Pearson correlation coefficient of two aligned rational sequences
(numerator and the two centred sums of squares are exact rationals; only the
square roots are real). -/
noncomputable def pearson (a b : List ℚ) : ℝ :=
  let n : ℚ := a.length
  let ma := a.sum / n
  let mb := b.sum / n
  let ca := a.map (fun v => v - ma)
  let cb := b.map (fun v => v - mb)
  let sab := ((ca.zip cb).map (fun p => p.1 * p.2)).sum
  let saa := (ca.map (fun v => v * v)).sum
  let sbb := (cb.map (fun v => v * v)).sum
  ((sab : ℚ) : ℝ) / (Real.sqrt ((saa : ℚ) : ℝ) * Real.sqrt ((sbb : ℚ) : ℝ))

/-- `spearman_ds(ds, actual_col, pred_col)` with the default
`p_value=False`: the source delegates to `scipy.stats.spearmanr`, which is
the Pearson correlation of the average ranks of the two columns (modelled
from scipy's documented semantics; `nan_policy='omit'` is the identity on the
NaN-free inputs considered here). -/
noncomputable def spearman_ds (ds : List Row) : ℝ :=
  pearson (ranksOf (ds.map Row.actual)) (ranksOf (ds.map Row.predicted))

/-! ### Basic facts about the loop -/

theorem scoreList_succ (y Y : List ℚ) (k : ℕ) :
    scoreList y Y (k + 1) = scoreList y Y k ++
      [if dcgAt Y (k + 1) = 0 then 0 else dcgAt y (k + 1) / dcgAt Y (k + 1)] := by
  simp [scoreList, List.range_succ]

theorem scoreList_length (y Y : List ℚ) (k : ℕ) : (scoreList y Y k).length = k := by
  simp [scoreList]

theorem dcgAt_succ (y : List ℚ) (k : ℕ) (h : k < y.length) :
    dcgAt y (k + 1) = dcgAt y k + ((y.get ⟨k, h⟩ : ℚ) : ℝ) / Real.logb 2 ((k : ℝ) + 2) := by
  rw [dcgAt, dcgAt, Finset.sum_range_succ]
  congr 1
  rw [List.getD_eq_getElem?_getD, List.getElem?_eq_getElem h]
  rfl

/-- After `k ≤ n` iterations the loop state is exactly the closed-form gains,
the index list `[0, …, k-1]` and the closed-form score list. -/
theorem ndcgLoop_ok (y Y : List ℚ) (k : ℕ) (h1 : k ≤ y.length) (h2 : k ≤ Y.length) :
    ndcgLoop y Y k =
      Except.ok ⟨dcgAt y k, dcgAt Y k, List.range k, scoreList y Y k⟩ := by
  induction k with
  | zero => simp [ndcgLoop, dcgAt, scoreList]
  | succ k ih =>
    have hk1 : k < y.length := lt_of_lt_of_le (Nat.lt_succ_self k) h1
    have hk2 : k < Y.length := lt_of_lt_of_le (Nat.lt_succ_self k) h2
    rw [ndcgLoop, ih (le_of_lt hk1) (le_of_lt hk2)]
    simp only [dif_pos (And.intro hk1 hk2)]
    simp only [← dcgAt_succ y k hk1, ← dcgAt_succ Y k hk2]
    rw [scoreList_succ, List.range_succ]

/-- If the loop returned normally then its bound was within both lists. -/
theorem ndcgLoop_ok_bounds (y Y : List ℚ) (k : ℕ) (s : LoopState)
    (h : ndcgLoop y Y k = Except.ok s) : k ≤ y.length ∧ k ≤ Y.length := by
  induction k generalizing s with
  | zero => exact ⟨Nat.zero_le _, Nat.zero_le _⟩
  | succ k ih =>
    rw [ndcgLoop] at h
    rcases hk : ndcgLoop y Y k with e | s'
    · rw [hk] at h; exact absurd h (by simp)
    · rw [hk] at h
      rcases ih s' hk with ⟨hy, hY⟩
      by_cases hcond : k < y.length ∧ k < Y.length
      · exact ⟨hcond.1, hcond.2⟩
      · simp only [dif_neg hcond] at h; exact absurd h (by simp)

/-- Reading past the end of either list raises IndexError. -/
theorem ndcgLoop_err (y Y : List ℚ) (k : ℕ) (h : y.length < k ∨ Y.length < k) :
    ndcgLoop y Y k = Except.error PyErr.indexError := by
  induction k with
  | zero => omega
  | succ k ih =>
    rw [ndcgLoop]
    by_cases hk : y.length < k ∨ Y.length < k
    · rw [ih hk]
    · push_neg at hk
      rw [ndcgLoop_ok y Y k hk.1 hk.2]
      have hnc : ¬(k < y.length ∧ k < Y.length) := by omega
      simp only [dif_neg hnc]

/-! ### Sorting infrastructure -/

theorem sortValsDesc_perm (l : List ℚ) : (sortValsDesc l).Perm l :=
  List.perm_insertionSort _ l

theorem sortValsAsc_perm (l : List ℚ) : (sortValsAsc l).Perm l :=
  List.perm_insertionSort _ l

theorem sortValsDesc_sorted (l : List ℚ) : (sortValsDesc l).Sorted (· ≥ ·) :=
  List.sorted_insertionSort _ l

theorem sortValsAsc_sorted (l : List ℚ) : (sortValsAsc l).Sorted (· ≤ ·) :=
  List.sorted_insertionSort _ l

/-- The descending value sort only depends on the multiset of values. -/
theorem sortValsDesc_congr (l l' : List ℚ) (h : l.Perm l') :
    sortValsDesc l = sortValsDesc l' :=
  List.eq_of_perm_of_sorted (((sortValsDesc_perm l).trans h).trans
    (sortValsDesc_perm l').symm) (sortValsDesc_sorted l) (sortValsDesc_sorted l')

/-- The ascending value sort only depends on the multiset of values. -/
theorem sortValsAsc_congr (l l' : List ℚ) (h : l.Perm l') :
    sortValsAsc l = sortValsAsc l' :=
  List.eq_of_perm_of_sorted (((sortValsAsc_perm l).trans h).trans
    (sortValsAsc_perm l').symm) (sortValsAsc_sorted l) (sortValsAsc_sorted l')

theorem sortAscByActual_perm (ds : List Row) : (sortAscByActual ds).Perm ds :=
  List.perm_insertionSort _ ds

theorem sortDescByPred_perm (ds : List Row) : (sortDescByPred ds).Perm ds :=
  (List.reverse_perm _).trans
    ((List.perm_insertionSort _ ds.reverse).trans (List.reverse_perm ds))

/-- Either branch of the `bins == False` relevance extraction is a
permutation of the actual column. -/
theorem relSeq_perm (ds : List Row) (reverse : Bool) :
    (relSeq ds reverse).Perm (ds.map Row.actual) := by
  unfold relSeq
  cases reverse
  · simpa using (sortDescByPred_perm ds).map Row.actual
  · simpa using (sortAscByActual_perm ds).map Row.actual

/-- Either branch of the `bins == True` relevance extraction is a
permutation of the binned column. -/
theorem relSeqBinned_perm (ds : List Row) (reverse : Bool) :
    (relSeqBinned ds reverse).Perm (ds.map (fun r => r.binned.getD 0)) := by
  unfold relSeqBinned
  cases reverse
  · simpa using (sortDescByPred_perm ds).map _
  · simpa using (sortAscByActual_perm ds).map _

/-- Sorting the rows by the actual column and then extracting that column is
the ascending sort of the column values. -/
theorem relSeq_baseline (ds : List Row) :
    relSeq ds true = sortValsAsc (ds.map Row.actual) := by
  refine List.eq_of_perm_of_sorted (r := (· ≤ ·))
    ((relSeq_perm ds true).trans (sortValsAsc_perm (ds.map Row.actual)).symm) ?_
    (sortValsAsc_sorted _)
  have hs : (sortAscByActual ds).Sorted rowLeActual :=
    List.sorted_insertionSort _ ds
  simpa [relSeq] using hs.map Row.actual (fun _ _ h => h)

/-! ### Prefix-sum domination and the rearrangement bound

The mathematical core: at every prefix length, the descending sort maximises
the discounted cumulative gain over all permutations of the relevance values,
and the ascending sort minimises it.  The proof goes through prefix-sum
domination plus Abel summation against the antitone positive discount
weights. -/

/-- Any sub-permutation of a descending-sorted list is summed-dominated by
the corresponding prefix of that list. -/
theorem sum_le_sum_take_of_subperm :
    ∀ (D : List ℚ), D.Sorted (· ≥ ·) → ∀ (t : List ℚ), t.Subperm D →
      t.sum ≤ (D.take t.length).sum := by
  intro D
  induction D with
  | nil =>
    intro _ t ht
    rw [List.subperm_nil.mp ht]
    simp
  | cons d D ih =>
    intro hD t ht
    by_cases hd : d ∈ t
    · have hperm : t.Perm (d :: t.erase d) := List.perm_cons_erase hd
      have hsub : (t.erase d).Subperm D :=
        (List.subperm_cons d).mp (hperm.subperm_right.mp ht)
      have hlen : t.length = (t.erase d).length + 1 := by
        rw [List.length_erase_of_mem hd]
        have : 0 < t.length := List.length_pos_of_mem hd
        omega
      have hsum : t.sum = d + (t.erase d).sum := by
        rw [hperm.sum_eq]; simp
      rw [hsum, hlen, List.take_succ_cons, List.sum_cons]
      exact add_le_add_left (ih ((List.sorted_cons.mp hD).2) _ hsub) d
    · -- d does not occur in t, so t is a sub-permutation of D alone
      have hsub : t.Subperm D := by
        rcases ht with ⟨u, hu, hsl⟩
        rcases List.sublist_cons_iff.mp hsl with h | ⟨v, rfl, hv⟩
        · exact ⟨u, hu, h⟩
        · exact absurd (hu.mem_iff.mp (List.mem_cons_self d v)) hd
      have hbase := ih ((List.sorted_cons.mp hD).2) t hsub
      rcases Nat.eq_zero_or_pos t.length with h0 | hpos
      · simp [h0]
        rw [List.length_eq_zero.mp h0]
        simp
      · obtain ⟨m, hm⟩ : ∃ m, t.length = m + 1 := ⟨t.length - 1, by omega⟩
        have hmlt : m < D.length := by
          have := hsub.length_le
          omega
        refine le_trans hbase ?_
        rw [hm, List.take_succ_cons, List.sum_cons, List.sum_take_succ D m hmlt]
        have hdm : D[m] ≤ d := (List.sorted_cons.mp hD).1 _ (List.getElem_mem hmlt)
        linarith

/-- At every prefix length, the descending sort dominates the list itself in
partial sums. -/
theorem sum_take_le_sum_take_sortValsDesc (y : List ℚ) (m : ℕ) :
    (y.take m).sum ≤ ((sortValsDesc y).take m).sum := by
  have hsub : (y.take m).Subperm (sortValsDesc y) :=
    (sortValsDesc_perm y).symm.subperm_left.mp (List.take_sublist m y).subperm
  have h := sum_le_sum_take_of_subperm (sortValsDesc y) (sortValsDesc_sorted y) _ hsub
  rcases le_or_lt m y.length with hle | hlt
  · rwa [List.length_take, Nat.min_eq_left hle] at h
  · have hlen : (sortValsDesc y).length = y.length := (sortValsDesc_perm y).length_eq
    have h1 : y.take m = y := List.take_of_length_le (le_of_lt hlt)
    have h2 : (sortValsDesc y).take m = sortValsDesc y :=
      List.take_of_length_le (by omega)
    rw [h1, h2, (sortValsDesc_perm y).sum_eq]

/-- Negating a list turns its ascending sort into the descending sort of the
negated list. -/
theorem sortValsDesc_map_neg (p : List ℚ) :
    sortValsDesc (p.map (fun x => -x)) = (sortValsAsc p).map (fun x => -x) := by
  refine List.eq_of_perm_of_sorted (r := (· ≥ ·)) ?_ (sortValsDesc_sorted _) ?_
  · exact (sortValsDesc_perm _).trans ((sortValsAsc_perm p).map _).symm
  · exact (sortValsAsc_sorted p).map _ (fun a b h => neg_le_neg h)

/-- At every prefix length, the ascending sort of the value multiset is
summed-dominated by any permutation of it. -/
theorem sum_take_sortValsAsc_le (r p : List ℚ) (hp : p.Perm r) (m : ℕ) :
    ((sortValsAsc r).take m).sum ≤ (p.take m).sum := by
  have h := sum_take_le_sum_take_sortValsDesc (p.map (fun x => -x)) m
  rw [sortValsDesc_map_neg p, sortValsAsc_congr p r hp] at h
  rw [← List.map_take, ← List.map_take, ← List.sum_neg, ← List.sum_neg] at h
  linarith

/-! ### Abel summation against the discount weights -/

/-- Cast partial sum of the first `m` entries, as a real number. -/
noncomputable def takeSumR (x : List ℚ) (m : ℕ) : ℝ := ((x.take m).sum : ℚ)

theorem takeSumR_succ (x : List ℚ) (m : ℕ) :
    takeSumR x (m + 1) = takeSumR x m + ((x.getD m 0 : ℚ) : ℝ) := by
  unfold takeSumR
  rcases lt_or_le m x.length with h | h
  · rw [List.sum_take_succ x m h, List.getD_eq_getElem?_getD, List.getElem?_eq_getElem h]
    push_cast
    rfl
  · rw [List.take_of_length_le h, List.take_of_length_le (le_trans h (Nat.le_succ m)),
      List.getD_eq_default]
    · simp
    · exact h

/-- Abel (summation by parts) identity for a weighted prefix sum. -/
theorem abel_identity (x : List ℚ) (w : ℕ → ℝ) (i : ℕ) :
    ∑ j ∈ Finset.range i, ((x.getD j 0 : ℚ) : ℝ) * w j =
      (∑ m ∈ Finset.range i, (w m - w (m + 1)) * takeSumR x (m + 1)) +
        w i * takeSumR x i := by
  induction i with
  | zero => simp [takeSumR]
  | succ i ih =>
    rw [Finset.sum_range_succ, ih, Finset.sum_range_succ, takeSumR_succ]
    ring

/-- Comparison of weighted prefix sums from prefix-sum domination, for
antitone nonnegative weights. -/
theorem weighted_sum_le_of_take_sum_le (u v : List ℚ) (w : ℕ → ℝ) (i : ℕ)
    (hw0 : ∀ j, 0 ≤ w j) (hwa : ∀ j, w (j + 1) ≤ w j)
    (hps : ∀ m, takeSumR u m ≤ takeSumR v m) :
    ∑ j ∈ Finset.range i, ((u.getD j 0 : ℚ) : ℝ) * w j ≤
      ∑ j ∈ Finset.range i, ((v.getD j 0 : ℚ) : ℝ) * w j := by
  rw [abel_identity u w i, abel_identity v w i]
  have h1 : ∀ m ∈ Finset.range i,
      (w m - w (m + 1)) * takeSumR u (m + 1) ≤ (w m - w (m + 1)) * takeSumR v (m + 1) :=
    fun m _ => mul_le_mul_of_nonneg_left (hps (m + 1)) (by linarith [hwa m])
  have h2 : w i * takeSumR u i ≤ w i * takeSumR v i :=
    mul_le_mul_of_nonneg_left (hps i) (hw0 i)
  exact add_le_add (Finset.sum_le_sum h1) h2

/-- The discount denominator `log2(j+2)` is at least 1. -/
theorem one_le_logDisc (j : ℕ) : 1 ≤ Real.logb 2 ((j : ℝ) + 2) := by
  have h2 : Real.logb 2 2 = 1 := Real.logb_self_eq_one (by norm_num)
  rw [← h2]
  apply (Real.logb_le_logb (by norm_num) (by norm_num) (by positivity)).mpr
  have : (0 : ℝ) ≤ (j : ℝ) := Nat.cast_nonneg j
  linarith

/-- The discount weights `1/log2(j+2)` are nonnegative. -/
theorem logDisc_inv_nonneg (j : ℕ) : 0 ≤ (Real.logb 2 ((j : ℝ) + 2))⁻¹ := by
  have := one_le_logDisc j
  positivity

/-- The discount weights `1/log2(j+2)` are antitone. -/
theorem logDisc_inv_antitone (j : ℕ) :
    (Real.logb 2 (((j : ℝ) + 1) + 2))⁻¹ ≤ (Real.logb 2 ((j : ℝ) + 2))⁻¹ := by
  have h1 : (0:ℝ) < Real.logb 2 ((j : ℝ) + 2) := lt_of_lt_of_le one_pos (one_le_logDisc j)
  apply inv_anti₀ h1
  apply (Real.logb_le_logb (by norm_num) (by positivity) (by positivity)).mpr
  linarith

/-- `dcgAt` as a weighted sum with the inverse-log weights. -/
theorem dcgAt_eq_weighted (y : List ℚ) (i : ℕ) :
    dcgAt y i =
      ∑ j ∈ Finset.range i, ((y.getD j 0 : ℚ) : ℝ) * (Real.logb 2 ((j : ℝ) + 2))⁻¹ := by
  unfold dcgAt
  exact Finset.sum_congr rfl (fun j _ => div_eq_mul_inv _ _)

/-- Rearrangement upper bound: at every prefix, the discounted gain of any
relevance sequence is at most that of its descending sort. -/
theorem dcgAt_le_dcgAt_sortValsDesc (y : List ℚ) (i : ℕ) :
    dcgAt y i ≤ dcgAt (sortValsDesc y) i := by
  rw [dcgAt_eq_weighted, dcgAt_eq_weighted]
  apply weighted_sum_le_of_take_sum_le
  · exact logDisc_inv_nonneg
  · intro j
    have h := logDisc_inv_antitone j
    push_cast at h ⊢
    convert h using 4
  · intro m
    unfold takeSumR
    exact_mod_cast sum_take_le_sum_take_sortValsDesc y m

/-- Rearrangement lower bound: at every prefix, the discounted gain of the
ascending sort is at most that of any permutation of the same values. -/
theorem dcgAt_sortValsAsc_le (r p : List ℚ) (hp : p.Perm r) (i : ℕ) :
    dcgAt (sortValsAsc r) i ≤ dcgAt p i := by
  rw [dcgAt_eq_weighted, dcgAt_eq_weighted]
  apply weighted_sum_le_of_take_sum_le
  · exact logDisc_inv_nonneg
  · intro j
    have h := logDisc_inv_antitone j
    push_cast at h ⊢
    convert h using 4
  · intro m
    unfold takeSumR
    exact_mod_cast sum_take_sortValsAsc_le r p hp m

/-- Discounted gains of a nonnegative sequence are nonnegative. -/
theorem dcgAt_nonneg (y : List ℚ) (hy : ∀ x ∈ y, 0 ≤ x) (i : ℕ) : 0 ≤ dcgAt y i := by
  unfold dcgAt
  apply Finset.sum_nonneg
  intro j _
  apply div_nonneg
  · rcases lt_or_le j y.length with h | h
    · rw [List.getD_eq_getElem?_getD, List.getElem?_eq_getElem h]
      exact_mod_cast hy _ (List.getElem_mem h)
    · rw [List.getD_eq_default _ _ h]; simp
  · exact le_trans zero_le_one (one_le_logDisc j)

/-! ### Stability of the ascending insertion sort, per predicted-value class -/

/-- Inserting a row whose `predicted` equals `c` puts it in front of the
existing rows with that `predicted` value: every row it passes over has a
strictly smaller key. -/
theorem filter_orderedInsert_of_eq (c : ℚ) (a : Row) (ha : a.predicted = c) :
    ∀ l : List Row, (List.orderedInsert rowLePred a l).filter
        (fun r => r.predicted = c) = a :: l.filter (fun r => r.predicted = c) := by
  intro l
  induction l with
  | nil => simp [List.orderedInsert, ha]
  | cons b t ih =>
    by_cases hab : rowLePred a b
    · rw [List.orderedInsert, if_pos hab]
      simp [ha]
    · rw [List.orderedInsert, if_neg hab]
      have hb : ¬(b.predicted = c) := by
        rw [← ha]
        unfold rowLePred at hab
        intro hbc
        exact hab (le_of_eq hbc.symm)
      rw [List.filter_cons, List.filter_cons]
      simp only [hb, decide_False, if_false]
      simpa using ih

/-- Inserting a row whose `predicted` differs from `c` does not change the
subsequence of rows with `predicted = c`. -/
theorem filter_orderedInsert_of_ne (c : ℚ) (a : Row) (ha : a.predicted ≠ c) :
    ∀ l : List Row, (List.orderedInsert rowLePred a l).filter
        (fun r => r.predicted = c) = l.filter (fun r => r.predicted = c) := by
  intro l
  induction l with
  | nil => simp [List.orderedInsert, ha]
  | cons b t ih =>
    by_cases hab : rowLePred a b
    · rw [List.orderedInsert, if_pos hab]
      simp [ha]
    · rw [List.orderedInsert, if_neg hab]
      rw [List.filter_cons, List.filter_cons]
      by_cases hb : b.predicted = c
      · simp [hb, ih]
      · simp [hb, ih]

/-- Stability of the ascending insertion sort on the `predicted` key: the
subsequence of rows with any given `predicted` value is untouched. -/
theorem insertionSort_pred_filter (c : ℚ) (ds : List Row) :
    (List.insertionSort rowLePred ds).filter (fun r => r.predicted = c) =
      ds.filter (fun r => r.predicted = c) := by
  induction ds with
  | nil => rfl
  | cons a t ih =>
    show (List.orderedInsert rowLePred a (List.insertionSort rowLePred t)).filter _ = _
    by_cases ha : a.predicted = c
    · rw [filter_orderedInsert_of_eq c a ha, ih, List.filter_cons]
      simp [ha]
    · rw [filter_orderedInsert_of_ne c a ha, ih, List.filter_cons]
      simp [ha]

/-! ### Binning facts -/

/-- A grade produced by `pd.cut` is one of the labels `0,…,4`; in particular
it is nonnegative. -/
theorem cutGrade_nonneg (edges : List ℚ) (x g : ℚ) (h : cutGrade edges x = some g) :
    0 ≤ g := by
  unfold cutGrade at h
  split_ifs at h
  all_goals simp at h
  all_goals (subst h; norm_num)

/-- Successful binning sets a nonnegative grade on every row and preserves
the row count. -/
theorem cutRows_ok_facts (edges : List ℚ) :
    ∀ (ds out : List Row), cutRows edges ds = Except.ok out →
      (∀ r ∈ out, ∃ g, r.binned = some g ∧ 0 ≤ g) ∧ out.length = ds.length := by
  intro ds
  induction ds with
  | nil =>
    intro out h
    injection h with h'
    simp [← h']
  | cons r rs ih =>
    intro out h
    unfold cutRows at h
    rcases hg : cutGrade edges r.actual with _ | g
    · rw [hg] at h; exact absurd h (by simp)
    · rw [hg] at h
      rcases hrest : cutRows edges rs with e | rest
      · rw [hrest] at h; exact absurd h (by simp)
      · rw [hrest] at h
        injection h with h'
        rcases ih rest hrest with ⟨hmem, hlen⟩
        subst h'
        refine ⟨?_, by simp [hlen]⟩
        intro r' hr'
        rcases List.mem_cons.mp hr' with rfl | hr'
        · exact ⟨g, rfl, cutGrade_nonneg edges r.actual g hg⟩
        · exact hmem r' hr'

/-! ### Characterisation of `ndcgCore` and `ndcg_at_k` -/

theorem sortValsDesc_length (l : List ℚ) : (sortValsDesc l).length = l.length :=
  (sortValsDesc_perm l).length_eq

theorem relSeq_length (ds : List Row) (reverse : Bool) :
    (relSeq ds reverse).length = ds.length := by
  rw [(relSeq_perm ds reverse).length_eq, List.length_map]

theorem relSeqBinned_length (ds : List Row) (reverse : Bool) :
    (relSeqBinned ds reverse).length = ds.length := by
  rw [(relSeqBinned_perm ds reverse).length_eq, List.length_map]

theorem scoreList_ne_nil (y Y : List ℚ) (k : ℕ) (hpos : 0 < k) :
    scoreList y Y k ≠ [] := by
  intro hemp
  have hl := scoreList_length y Y k
  rw [hemp] at hl
  simp at hl
  omega

/-- Curve mode with an in-range bound returns the closed-form score list and
the indices `0, …, k-1`. -/
theorem ndcgCore_curve_eq (y : List ℚ) (k : ℤ) (h : k.toNat ≤ y.length) :
    ndcgCore y k true = Except.ok
      (NdcgResult.curve (scoreList y (sortValsDesc y) k.toNat) (List.range k.toNat)) := by
  unfold ndcgCore
  rw [ndcgLoop_ok y (sortValsDesc y) k.toNat h (by rw [sortValsDesc_length]; exact h)]
  rfl

/-- Scalar mode with an in-range positive bound returns the last score. -/
theorem ndcgCore_single_eq (y : List ℚ) (k : ℤ) (h : k.toNat ≤ y.length)
    (hpos : 0 < k.toNat) :
    ndcgCore y k false = Except.ok (NdcgResult.single
      ((scoreList y (sortValsDesc y) k.toNat).getLast
        (scoreList_ne_nil y (sortValsDesc y) k.toNat hpos))) := by
  unfold ndcgCore
  rw [ndcgLoop_ok y (sortValsDesc y) k.toNat h (by rw [sortValsDesc_length]; exact h)]
  simp [List.getLast?_eq_getLast _ (scoreList_ne_nil y (sortValsDesc y) k.toNat hpos)]

/-- An out-of-range bound raises IndexError in either output mode. -/
theorem ndcgCore_err (y : List ℚ) (k : ℤ) (multiple : Bool) (h : y.length < k.toNat) :
    ndcgCore y k multiple = Except.error PyErr.indexError := by
  unfold ndcgCore
  rw [ndcgLoop_err y (sortValsDesc y) k.toNat (Or.inl h)]

/-- A nonpositive bound in scalar mode raises IndexError (`score[-1]` on the
empty list). -/
theorem ndcgCore_single_nonpos (y : List ℚ) (k : ℤ) (hk : k ≤ 0) :
    ndcgCore y k false = Except.error PyErr.indexError := by
  unfold ndcgCore
  have h0 : k.toNat = 0 := Int.toNat_of_nonpos hk
  rw [h0, ndcgLoop_ok y (sortValsDesc y) 0 (Nat.zero_le _) (Nat.zero_le _)]
  simp [scoreList]

/-- A nonpositive bound in curve mode returns the empty curve. -/
theorem ndcgCore_curve_nonpos (y : List ℚ) (k : ℤ) (hk : k ≤ 0) :
    ndcgCore y k true = Except.ok (NdcgResult.curve [] []) := by
  unfold ndcgCore
  have h0 : k.toNat = 0 := Int.toNat_of_nonpos hk
  rw [h0, ndcgLoop_ok y (sortValsDesc y) 0 (Nat.zero_le _) (Nat.zero_le _)]
  simp [scoreList]

theorem ndcg_at_k_false (ds : List Row) (k : ℤ) (reverse multiple : Bool) :
    ndcg_at_k ds k false reverse multiple =
      (ndcgCore (relSeq ds reverse) k multiple, ds) := rfl

theorem ndcg_at_k_true_ok (ds ds' : List Row) (k : ℤ) (reverse multiple : Bool)
    (h : applyCut ds = Except.ok ds') :
    ndcg_at_k ds k true reverse multiple =
      (ndcgCore (relSeqBinned ds' reverse) k multiple, ds') := by
  unfold ndcg_at_k
  rw [h]
  rfl

/-- Membership in the closed-form score list. -/
theorem mem_scoreList (y Y : List ℚ) (k : ℕ) (x : ℝ) (hx : x ∈ scoreList y Y k) :
    ∃ i < k, x = if dcgAt Y (i + 1) = 0 then 0 else dcgAt y (i + 1) / dcgAt Y (i + 1) := by
  unfold scoreList at hx
  rcases List.mem_map.mp hx with ⟨i, hi, hxi⟩
  exact ⟨i, List.mem_range.mp hi, hxi.symm⟩

/-- Every score a call of `ndcgCore` returns is an element of the closed-form
score list. -/
theorem resScoresOf_core_subset (y : List ℚ) (k : ℤ) (multiple : Bool) (x : ℝ)
    (hx : x ∈ resScoresOf (ndcgCore y k multiple)) :
    x ∈ scoreList y (sortValsDesc y) k.toNat := by
  rcases le_or_lt k.toNat y.length with hlen | hlen
  · cases multiple
    · rcases Nat.eq_zero_or_pos k.toNat with h0 | hpos
      · have hk : k ≤ 0 := by omega
        rw [ndcgCore_single_nonpos y k hk] at hx
        exact absurd hx (by simp [resScoresOf])
      · rw [ndcgCore_single_eq y k hlen hpos] at hx
        simp only [resScoresOf, List.mem_singleton] at hx
        subst hx
        exact List.getLast_mem _
    · rw [ndcgCore_curve_eq y k hlen] at hx
      simpa [resScoresOf] using hx
  · rw [ndcgCore_err y k multiple hlen] at hx
    exact absurd hx (by simp [resScoresOf])

/-- Element `i` of the closed-form score list. -/
theorem scoreList_getD (y Y : List ℚ) (k i : ℕ) (hi : i < k) :
    (scoreList y Y k).getD i 0 =
      if dcgAt Y (i + 1) = 0 then 0 else dcgAt y (i + 1) / dcgAt Y (i + 1) := by
  unfold scoreList
  rw [List.getD_eq_getElem?_getD, List.getElem?_map, List.getElem?_range hi]
  rfl

/-- A discounted gain of an all-zero sequence vanishes. -/
theorem dcgAt_eq_zero_of_zero (y : List ℚ) (h : ∀ v ∈ y, v = 0) (i : ℕ) :
    dcgAt y i = 0 := by
  unfold dcgAt
  apply Finset.sum_eq_zero
  intro j _
  rcases lt_or_le j y.length with hj | hj
  · rw [List.getD_eq_getElem?_getD, List.getElem?_eq_getElem hj]
    rw [h _ (List.getElem_mem hj)]
    simp
  · rw [List.getD_eq_default _ _ hj]
    simp

/-- The single prefix score is within `[0,1]` for nonnegative relevance. -/
theorem score_formula_bounds (y : List ℚ) (hy : ∀ v ∈ y, 0 ≤ v) (i : ℕ) :
    0 ≤ (if dcgAt (sortValsDesc y) i = 0 then 0
          else dcgAt y i / dcgAt (sortValsDesc y) i) ∧
      (if dcgAt (sortValsDesc y) i = 0 then 0
          else dcgAt y i / dcgAt (sortValsDesc y) i) ≤ 1 := by
  by_cases hb : dcgAt (sortValsDesc y) i = 0
  · rw [if_pos hb]
    norm_num
  · rw [if_neg hb]
    have ha0 : 0 ≤ dcgAt y i := dcgAt_nonneg y hy i
    have hab : dcgAt y i ≤ dcgAt (sortValsDesc y) i := dcgAt_le_dcgAt_sortValsDesc y i
    have hb0 : 0 ≤ dcgAt (sortValsDesc y) i :=
      dcgAt_nonneg _ (fun v hv => hy v ((sortValsDesc_perm y).mem_iff.mp hv)) i
    have hbpos : 0 < dcgAt (sortValsDesc y) i := lt_of_le_of_ne hb0 (Ne.symm hb)
    exact ⟨div_nonneg ha0 hb0, (div_le_one hbpos).mpr hab⟩

/-! ### The claims -/

/-- The concrete batch of the spec's nDCG scenario:
actual = [0.9, 0.1, 0.5], predicted = [0.2, 0.8, 0.5]. -/
def exND : List Row := [⟨0.9, 0.2, none⟩, ⟨0.1, 0.8, none⟩, ⟨0.5, 0.5, none⟩]

/-- C1.  On the spec's concrete batch with `k = 3`, no binning and no
baseline: the prediction ordering carries relevance `[0.1, 0.5, 0.9]`, the
ideal ordering is `[0.9, 0.5, 0.1]`, the gain at prefix 1 is `0.1`, the
ideal gain at prefix 1 is `0.9`, and the first score is `0.1/0.9`. -/
theorem claim_C1 :
    relSeq exND false = [0.1, 0.5, 0.9] ∧
    sortValsDesc (relSeq exND false) = [0.9, 0.5, 0.1] ∧
    dcgAt (relSeq exND false) 1 = 0.1 ∧
    dcgAt (sortValsDesc (relSeq exND false)) 1 = 0.9 ∧
    (resScoresOf (ndcg_at_k exND 3 false false true).1).getD 0 0 = (0.1 : ℝ) / 0.9 := by
  have h1 : relSeq exND false = [0.1, 0.5, 0.9] := by
    norm_num [relSeq, sortDescByPred, List.insertionSort, List.orderedInsert, rowLePred, exND]
  have h2 : sortValsDesc (relSeq exND false) = [0.9, 0.5, 0.1] := by
    rw [h1]
    norm_num [sortValsDesc, List.insertionSort, List.orderedInsert]
  have h3 : dcgAt (relSeq exND false) 1 = 0.1 := by
    rw [h1]
    unfold dcgAt
    rw [Finset.sum_range_one]
    norm_num [List.getD, Real.logb_self_eq_one]
  have h4 : dcgAt (sortValsDesc (relSeq exND false)) 1 = 0.9 := by
    rw [h2]
    unfold dcgAt
    rw [Finset.sum_range_one]
    norm_num [List.getD, Real.logb_self_eq_one]
  refine ⟨h1, h2, h3, h4, ?_⟩
  rw [ndcg_at_k_false]
  have hlen : (3 : ℤ).toNat ≤ (relSeq exND false).length := by
    rw [relSeq_length]
    norm_num [exND]
  rw [ndcgCore_curve_eq _ 3 hlen]
  show (scoreList (relSeq exND false) (sortValsDesc (relSeq exND false)) (3 : ℤ).toNat).getD 0 0
      = (0.1 : ℝ) / 0.9
  rw [scoreList_getD _ _ _ 0 (by norm_num)]
  rw [if_neg (by rw [h4]; norm_num), h3, h4]

/-- C2 counterexample.  With `k = 0 ≤ 0` and `multiple=True`, `ndcg_at_k`
does not raise: the loop body never runs and the call returns the empty
curve `([], [])`. -/
theorem claim_C2_counterexample :
    (ndcg_at_k exND 0 false false true).1 = Except.ok (NdcgResult.curve [] []) := by
  rw [ndcg_at_k_false]
  exact ndcgCore_curve_nonpos (relSeq exND false) 0 le_rfl

/-- C2 amended.  Without binning: `k = n ≥ 1` returns normally; `k > n`
raises IndexError in both output modes; `k ≤ 0` raises IndexError in scalar
mode (`score[-1]` on the empty list) but in curve mode returns the empty
curve without error. -/
theorem claim_C2_amended (ds : List Row) (k : ℤ) (reverse multiple : Bool) :
    (1 ≤ k → k = (ds.length : ℤ) →
      isOkResult (ndcg_at_k ds k false reverse multiple).1 = true) ∧
    ((ds.length : ℤ) < k →
      (ndcg_at_k ds k false reverse multiple).1 = Except.error PyErr.indexError) ∧
    (k ≤ 0 → multiple = false →
      (ndcg_at_k ds k false reverse multiple).1 = Except.error PyErr.indexError) ∧
    (k ≤ 0 → multiple = true →
      (ndcg_at_k ds k false reverse multiple).1 = Except.ok (NdcgResult.curve [] [])) := by
  rw [ndcg_at_k_false]
  refine ⟨?_, ?_, ?_, ?_⟩
  · intro hk1 hkn
    have hlen : k.toNat ≤ (relSeq ds reverse).length := by
      rw [relSeq_length]
      omega
    cases multiple
    · rw [ndcgCore_single_eq _ k hlen (by omega)]
      rfl
    · rw [ndcgCore_curve_eq _ k hlen]
      rfl
  · intro hk
    apply ndcgCore_err
    rw [relSeq_length]
    omega
  · rintro hk rfl
    exact ndcgCore_single_nonpos _ k hk
  · rintro hk rfl
    exact ndcgCore_curve_nonpos _ k hk

/-- C2 witness: the three branches of the amended claim at concrete inputs
(`n = 3` with `k = 3`, `k = 5`, `k = 0`). -/
theorem claim_C2_witness :
    isOkResult (ndcg_at_k exND 3 false false false).1 = true ∧
    (ndcg_at_k exND 5 false false true).1 = Except.error PyErr.indexError ∧
    (ndcg_at_k exND 0 false true false).1 = Except.error PyErr.indexError := by
  refine ⟨(claim_C2_amended exND 3 false false).1 (by norm_num) (by norm_num [exND]),
    (claim_C2_amended exND 5 false true).2.1 (by norm_num [exND]),
    (claim_C2_amended exND 0 true false).2.2.1 le_rfl rfl⟩

/-- A batch with five distinct actual values, on which binning succeeds. -/
def exBin : List Row :=
  [⟨0.1, 1, none⟩, ⟨0.3, 2, none⟩, ⟨0.5, 3, none⟩, ⟨0.7, 4, none⟩, ⟨0.9, 5, none⟩]

/-- C3 counterexample.  With `bins=True` the call writes the `'binned'`
column onto the caller's frame: the frame after the call differs from the
frame passed in. -/
theorem claim_C3_counterexample : (ndcg_at_k exBin 3 true false false).2 ≠ exBin := by
  norm_num [ndcg_at_k, applyCut, binEdges, quantileOf, sortValsAsc, List.insertionSort,
    List.orderedInsert, Int.toNat_ofNat, List.getD, show Int.toNat 2 = 2 from rfl,
    show Int.toNat 3 = 3 from rfl, show Int.toNat 4 = 4 from rfl,
    List.chain'_cons, cutRows, cutGrade, exBin]
  decide

/-- C3 amended.  With binning disabled, `ndcg_at_k` leaves the caller's
frame unchanged in every configuration (with `bins=True` it adds the
`'binned'` column, as the counterexample shows). -/
theorem claim_C3_amended (ds : List Row) (k : ℤ) (reverse multiple : Bool) :
    (ndcg_at_k ds k false reverse multiple).2 = ds := rfl

/-- C4.  In prediction mode the batch is sorted by `predicted` descending,
and the sort is stable: `nargsort` reverses values and indices before the
stable ascending argsort and reverses the indexer after, so for every
predicted value `c` the rows with `predicted = c` appear in the prediction
ordering exactly in their original relative order. -/
theorem claim_C4 (ds : List Row) (c : ℚ) :
    (sortDescByPred ds).Sorted (fun a b => rowLePred b a) ∧
      (sortDescByPred ds).filter (fun r => r.predicted = c) =
        ds.filter (fun r => r.predicted = c) := by
  constructor
  · apply List.pairwise_reverse.mpr
    exact List.sorted_insertionSort rowLePred ds.reverse
  · unfold sortDescByPred
    rw [List.filter_reverse, insertionSort_pred_filter, List.filter_reverse,
      List.reverse_reverse]

/-- An all-zero-relevance batch whose prediction ordering trivially equals
the ideal ordering. -/
def exZero : List Row := [⟨0, 2, none⟩, ⟨0, 1, none⟩]

/-- C5 counterexample.  On an all-zero batch the prediction ordering equals
the ideal ordering, yet the score is 0, not 1: the zero-denominator guard
fires at every prefix. -/
theorem claim_C5_counterexample :
    relSeq exZero false = sortValsDesc (relSeq exZero false) ∧
    (ndcg_at_k exZero 2 false false false).1 = Except.ok (NdcgResult.single 0) ∧
    (0 : ℝ) ≠ 1 := by
  have hy : relSeq exZero false = [0, 0] := by
    norm_num [relSeq, sortDescByPred, List.insertionSort, List.orderedInsert, rowLePred, exZero]
  have hsd : sortValsDesc ([0, 0] : List ℚ) = [0, 0] := by
    norm_num [sortValsDesc, List.insertionSort, List.orderedInsert]
  have hzero : ∀ v ∈ ([0, 0] : List ℚ), v = 0 := by
    intro v hv
    rcases List.mem_cons.mp hv with rfl | hv
    · rfl
    · rcases List.mem_cons.mp hv with rfl | hv
      · rfl
      · exact absurd hv (List.not_mem_nil v)
  have hs : scoreList (relSeq exZero false) (sortValsDesc (relSeq exZero false))
      ((2 : ℤ).toNat) = [0, 0] := by
    rw [hy, hsd]
    unfold scoreList
    rw [show ((2 : ℤ).toNat) = 2 from rfl, List.range_succ, List.range_succ, List.range_zero]
    simp only [List.nil_append, List.map_append, List.map_cons, List.map_nil]
    rw [dcgAt_eq_zero_of_zero _ hzero 1, dcgAt_eq_zero_of_zero _ hzero 2]
    simp
  refine ⟨by rw [hy, hsd], ?_, by norm_num⟩
  rw [ndcg_at_k_false]
  show ndcgCore (relSeq exZero false) 2 false = Except.ok (NdcgResult.single 0)
  unfold ndcgCore
  rw [ndcgLoop_ok _ _ _ (by rw [relSeq_length]; norm_num [exZero])
    (by rw [sortValsDesc_length, relSeq_length]; norm_num [exZero])]
  simp only [hs]
  rfl

/-- C5 amended.  If the prediction ordering already carries its relevance in
descending order (prediction = ideal), every prefix whose ideal accumulated
gain is nonzero scores exactly 1, and prefixes with zero ideal gain score
0. -/
theorem claim_C5_amended (ds : List Row) (k : ℤ)
    (hideal : relSeq ds false = sortValsDesc (relSeq ds false))
    (h1 : 1 ≤ k) (h2 : k ≤ (ds.length : ℤ)) :
    ∀ i < k.toNat,
      (dcgAt (sortValsDesc (relSeq ds false)) (i + 1) ≠ 0 →
        (resScoresOf (ndcg_at_k ds k false false true).1).getD i 0 = 1) ∧
      (dcgAt (sortValsDesc (relSeq ds false)) (i + 1) = 0 →
        (resScoresOf (ndcg_at_k ds k false false true).1).getD i 0 = 0) := by
  intro i hi
  rw [ndcg_at_k_false]
  have hlen : k.toNat ≤ (relSeq ds false).length := by
    rw [relSeq_length]
    omega
  rw [ndcgCore_curve_eq _ k hlen]
  simp only [resScoresOf]
  rw [scoreList_getD _ _ _ i hi]
  constructor
  · intro hb
    rw [if_neg hb, ← hideal]
    rw [div_self (by rw [hideal]; exact hb)]
  · intro hb
    rw [if_pos hb]

/-- A two-row batch whose predictions reproduce the ideal ordering with
nonzero gains. -/
def exIdeal : List Row := [⟨0.9, 0.9, none⟩, ⟨0.1, 0.1, none⟩]

/-- C5 witness: on a concrete ideal-ordered batch with nonzero ideal gain
at prefix 1, the first score is exactly 1. -/
theorem claim_C5_witness :
    (resScoresOf (ndcg_at_k exIdeal 2 false false true).1).getD 0 0 = 1 := by
  have hy : relSeq exIdeal false = [0.9, 0.1] := by
    norm_num [relSeq, sortDescByPred, List.insertionSort, List.orderedInsert, rowLePred, exIdeal]
  have hsd : sortValsDesc ([0.9, 0.1] : List ℚ) = [0.9, 0.1] := by
    norm_num [sortValsDesc, List.insertionSort, List.orderedInsert]
  have hb : dcgAt (sortValsDesc (relSeq exIdeal false)) 1 = 0.9 := by
    rw [hy, hsd]
    unfold dcgAt
    rw [Finset.sum_range_one]
    norm_num [List.getD, Real.logb_self_eq_one]
  exact (claim_C5_amended exIdeal 2 (by rw [hy, hsd]) (by norm_num)
    (by norm_num [exIdeal]) 0 (by norm_num)).1 (by rw [hb]; norm_num)

/-- C6 amended.  For nonnegative relevance values, the baseline
(ascending-actual) ordering scores at most the prediction ordering at every
prefix.  (Equality does not require uniform relevance, and for batches with
negative relevance values the bound itself can fail — see the
counterexample.) -/
theorem claim_C6_amended (ds : List Row) (k : ℤ)
    (h1 : 1 ≤ k) (h2 : k ≤ (ds.length : ℤ))
    (hnn : ∀ r ∈ ds, 0 ≤ r.actual) :
    ∀ i < k.toNat,
      (resScoresOf (ndcg_at_k ds k false true true).1).getD i 0 ≤
        (resScoresOf (ndcg_at_k ds k false false true).1).getD i 0 := by
  intro i hi
  rw [ndcg_at_k_false, ndcg_at_k_false]
  have hlenb : k.toNat ≤ (relSeq ds true).length := by rw [relSeq_length]; omega
  have hlenp : k.toNat ≤ (relSeq ds false).length := by rw [relSeq_length]; omega
  rw [ndcgCore_curve_eq _ k hlenb, ndcgCore_curve_eq _ k hlenp]
  simp only [resScoresOf]
  rw [scoreList_getD _ _ _ i hi, scoreList_getD _ _ _ i hi]
  have hYb : sortValsDesc (relSeq ds true) = sortValsDesc (ds.map Row.actual) :=
    sortValsDesc_congr _ _ (relSeq_perm ds true)
  have hYp : sortValsDesc (relSeq ds false) = sortValsDesc (ds.map Row.actual) :=
    sortValsDesc_congr _ _ (relSeq_perm ds false)
  rw [hYb, hYp]
  by_cases hb : dcgAt (sortValsDesc (ds.map Row.actual)) (i + 1) = 0
  · rw [if_pos hb, if_pos hb]
  · rw [if_neg hb, if_neg hb]
    have hAnn : ∀ v ∈ ds.map Row.actual, 0 ≤ v := by
      intro v hv
      rcases List.mem_map.mp hv with ⟨r, hr, rfl⟩
      exact hnn r hr
    have hBnn : ∀ v ∈ sortValsDesc (ds.map Row.actual), 0 ≤ v :=
      fun v hv => hAnn v ((sortValsDesc_perm _).mem_iff.mp hv)
    have hbpos : 0 < dcgAt (sortValsDesc (ds.map Row.actual)) (i + 1) :=
      lt_of_le_of_ne (dcgAt_nonneg _ hBnn _) (Ne.symm hb)
    have hnum : dcgAt (relSeq ds true) (i + 1) ≤ dcgAt (relSeq ds false) (i + 1) := by
      rw [relSeq_baseline ds]
      exact dcgAt_sortValsAsc_le (ds.map Row.actual) (relSeq ds false)
        (relSeq_perm ds false) (i + 1)
    exact (div_le_div_iff_of_pos_right hbpos).mpr hnum

/-- C6 witness: the bound at a concrete nonnegative batch with `k = 3`. -/
theorem claim_C6_witness :
    (resScoresOf (ndcg_at_k exND 3 false true true).1).getD 0 0 ≤
      (resScoresOf (ndcg_at_k exND 3 false false true).1).getD 0 0 := by
  refine claim_C6_amended exND 3 (by norm_num) (by norm_num [exND]) ?_ 0 (by norm_num)
  intro r hr
  simp only [exND, List.mem_cons, List.not_mem_nil, or_false] at hr
  rcases hr with rfl | rfl | rfl <;> norm_num

/-- A batch whose predictions sort it exactly into ascending-actual order:
the prediction and baseline scores coincide although relevance is not
uniform. -/
def exEq : List Row := [⟨0.1, 0.9, none⟩, ⟨0.9, 0.1, none⟩]

/-- A batch with a negative relevance value on which the baseline strictly
beats the prediction ordering at prefix 2. -/
def exNeg : List Row := [⟨-2, 1, none⟩, ⟨1, 2, none⟩]

/-- C6 counterexample.  (a) The baseline and prediction scores coincide on a
batch whose relevance values are not all equal, so "equality only when
relevance is uniform" fails.  (b) On a batch with a negative relevance
value, the baseline score strictly exceeds the prediction score at prefix 2,
so the bound itself fails without a nonnegativity hypothesis. -/
theorem claim_C6_counterexample :
    ((ndcg_at_k exEq 2 false true true).1 = (ndcg_at_k exEq 2 false false true).1 ∧
      exEq.map Row.actual = [0.1, 0.9] ∧ (0.1 : ℚ) ≠ 0.9) ∧
    (resScoresOf (ndcg_at_k exNeg 2 false false true).1).getD 1 0 <
      (resScoresOf (ndcg_at_k exNeg 2 false true true).1).getD 1 0 := by
  constructor
  · have e1 : relSeq exEq true = [0.1, 0.9] := by
      norm_num [relSeq, sortAscByActual, List.insertionSort, List.orderedInsert,
        rowLeActual, exEq]
    have e2 : relSeq exEq false = [0.1, 0.9] := by
      norm_num [relSeq, sortDescByPred, List.insertionSort, List.orderedInsert,
        rowLePred, exEq]
    refine ⟨?_, by norm_num [exEq], by norm_num⟩
    rw [ndcg_at_k_false, ndcg_at_k_false, e1, e2]
  · have hp : relSeq exNeg false = [1, -2] := by
      norm_num [relSeq, sortDescByPred, List.insertionSort, List.orderedInsert,
        rowLePred, exNeg]
    have hbse : relSeq exNeg true = [-2, 1] := by
      norm_num [relSeq, sortAscByActual, List.insertionSort, List.orderedInsert,
        rowLeActual, exNeg]
    have hsd1 : sortValsDesc ([1, -2] : List ℚ) = [1, -2] := by
      norm_num [sortValsDesc, List.insertionSort, List.orderedInsert]
    have hsd2 : sortValsDesc ([-2, 1] : List ℚ) = [1, -2] := by
      norm_num [sortValsDesc, List.insertionSort, List.orderedInsert]
    have hL1 : 1 < Real.logb 2 3 := by
      rw [show (1 : ℝ) = Real.logb 2 2 from (Real.logb_self_eq_one (by norm_num)).symm]
      apply Real.logb_lt_logb (by norm_num) (by norm_num) (by norm_num)
    have hL2 : Real.logb 2 3 < 2 := by
      rw [Real.logb_lt_iff_lt_rpow (by norm_num) (by norm_num)]
      rw [show (2 : ℝ) = ((2 : ℕ) : ℝ) by norm_num, Real.rpow_natCast]
      norm_num
    have hLpos : 0 < Real.logb 2 3 := lt_trans one_pos hL1
    have hcast : ((1 : ℕ) : ℝ) + 2 = 3 := by norm_num
    have hb2 : dcgAt ([1, -2] : List ℚ) 2 = 1 - 2 / Real.logb 2 3 := by
      unfold dcgAt
      rw [Finset.sum_range_succ, Finset.sum_range_one, hcast]
      norm_num [List.getD, Real.logb_self_eq_one]
      ring
    have ha2 : dcgAt ([-2, 1] : List ℚ) 2 = -2 + 1 / Real.logb 2 3 := by
      unfold dcgAt
      rw [Finset.sum_range_succ, Finset.sum_range_one, hcast]
      norm_num [List.getD, Real.logb_self_eq_one]
    have hwlt : 1 / Real.logb 2 3 < 1 := (div_lt_one hLpos).mpr hL1
    have hwgt : 1 < 2 / Real.logb 2 3 := (one_lt_div hLpos).mpr hL2
    have hbneg : dcgAt ([1, -2] : List ℚ) 2 < 0 := by rw [hb2]; linarith
    have hbne : dcgAt ([1, -2] : List ℚ) 2 ≠ 0 := ne_of_lt hbneg
    rw [ndcg_at_k_false, ndcg_at_k_false]
    rw [ndcgCore_curve_eq _ 2 (by rw [relSeq_length]; norm_num [exNeg]),
      ndcgCore_curve_eq _ 2 (by rw [relSeq_length]; norm_num [exNeg])]
    simp only [resScoresOf]
    rw [scoreList_getD _ _ _ 1 (by norm_num), scoreList_getD _ _ _ 1 (by norm_num)]
    rw [hp, hbse, hsd1, hsd2]
    rw [if_neg hbne, if_neg hbne, div_self hbne]
    rw [lt_div_iff_of_neg hbneg, hb2, ha2]
    have h2w : (2 : ℝ) / Real.logb 2 3 = 2 * (1 / Real.logb 2 3) := by ring
    rw [h2w]
    linarith

theorem applyCut_ok_facts (ds ds' : List Row) (h : applyCut ds = Except.ok ds') :
    (∀ r ∈ ds', ∃ g, r.binned = some g ∧ 0 ≤ g) ∧ ds'.length = ds.length := by
  unfold applyCut at h
  simp only [] at h
  split_ifs at h with hch
  exact cutRows_ok_facts _ ds ds' h

/-- C7 amended.  Every prefix score is `a/b` guarded to 0 when the ideal
accumulated gain `b` vanishes; with binning disabled an all-zero batch
scores 0 at every prefix; and the same guard formula governs successful
binning runs.  (With binning enabled an all-zero batch never reaches the
loop: `pd.cut` raises on the degenerate quantile edges — see the
counterexample.) -/
theorem claim_C7_amended (ds : List Row) (k : ℤ) (reverse : Bool)
    (h1 : 1 ≤ k) (h2 : k ≤ (ds.length : ℤ)) :
    (∀ i < k.toNat,
      (resScoresOf (ndcg_at_k ds k false reverse true).1).getD i 0 =
        if dcgAt (sortValsDesc (relSeq ds reverse)) (i + 1) = 0 then 0
        else dcgAt (relSeq ds reverse) (i + 1) /
          dcgAt (sortValsDesc (relSeq ds reverse)) (i + 1)) ∧
    ((∀ r ∈ ds, r.actual = 0) → ∀ i < k.toNat,
      (resScoresOf (ndcg_at_k ds k false reverse true).1).getD i 0 = 0) ∧
    (∀ ds', applyCut ds = Except.ok ds' → ∀ i < k.toNat,
      (resScoresOf (ndcg_at_k ds k true reverse true).1).getD i 0 =
        if dcgAt (sortValsDesc (relSeqBinned ds' reverse)) (i + 1) = 0 then 0
        else dcgAt (relSeqBinned ds' reverse) (i + 1) /
          dcgAt (sortValsDesc (relSeqBinned ds' reverse)) (i + 1)) := by
  have hform : ∀ i < k.toNat,
      (resScoresOf (ndcg_at_k ds k false reverse true).1).getD i 0 =
        if dcgAt (sortValsDesc (relSeq ds reverse)) (i + 1) = 0 then 0
        else dcgAt (relSeq ds reverse) (i + 1) /
          dcgAt (sortValsDesc (relSeq ds reverse)) (i + 1) := by
    intro i hi
    rw [ndcg_at_k_false]
    rw [ndcgCore_curve_eq _ k (by rw [relSeq_length]; omega)]
    simp only [resScoresOf]
    exact scoreList_getD _ _ _ i hi
  refine ⟨hform, ?_, ?_⟩
  · intro hz i hi
    rw [hform i hi]
    have hy : ∀ v ∈ relSeq ds reverse, v = 0 := by
      intro v hv
      rcases List.mem_map.mp ((relSeq_perm ds reverse).mem_iff.mp hv) with ⟨r, hr, rfl⟩
      exact hz r hr
    have hY : ∀ v ∈ sortValsDesc (relSeq ds reverse), v = 0 :=
      fun v hv => hy v ((sortValsDesc_perm _).mem_iff.mp hv)
    rw [if_pos (dcgAt_eq_zero_of_zero _ hY (i + 1))]
  · intro ds' hcut i hi
    rw [ndcg_at_k_true_ok ds ds' k reverse true hcut]
    have hlen : k.toNat ≤ (relSeqBinned ds' reverse).length := by
      rw [relSeqBinned_length, (applyCut_ok_facts ds ds' hcut).2]
      omega
    rw [ndcgCore_curve_eq _ k hlen]
    simp only [resScoresOf]
    exact scoreList_getD _ _ _ i hi

/-- C7 witness: the zero-batch clause at a concrete all-zero batch. -/
theorem claim_C7_witness :
    (resScoresOf (ndcg_at_k exZero 2 false false true).1).getD 0 0 = 0 := by
  refine (claim_C7_amended exZero 2 false (by norm_num)
    (by norm_num [exZero])).2.1 ?_ 0 (by norm_num)
  intro r hr
  simp only [exZero, List.mem_cons, List.not_mem_nil, or_false] at hr
  rcases hr with rfl | rfl <;> norm_num

/-- C7 counterexample.  With `bins=True`, a batch whose relevance values are
all 0 does not score 0 at every prefix: the call dies in `pd.cut` with
`ValueError` (all quantile edges collapse to 0), before any score exists. -/
theorem claim_C7_counterexample :
    isValueError (ndcg_at_k exZero 2 true false false).1 = true ∧
    (∀ r ∈ exZero, r.actual = 0) := by
  constructor
  · norm_num [ndcg_at_k, applyCut, binEdges, quantileOf, sortValsAsc, List.insertionSort,
      List.orderedInsert, List.chain'_cons, exZero, isValueError]
  · intro r hr
    simp only [exZero, List.mem_cons, List.not_mem_nil, or_false] at hr
    rcases hr with rfl | rfl <;> norm_num

theorem ndcg_at_k_true_err (ds : List Row) (k : ℤ) (reverse multiple : Bool)
    (e : PyErr) (h : applyCut ds = Except.error e) :
    ndcg_at_k ds k true reverse multiple = (Except.error e, ds) := by
  unfold ndcg_at_k
  rw [h]
  rfl

/-- C8 counterexample.  In curve mode with `k = 2` the returned index list is
`[0, 1]` (`thr.append(i)` for `i in range(0, k)`), not `[1, 2]`. -/
theorem claim_C8_counterexample :
    resThrOf (ndcg_at_k exND 2 false false true).1 = [0, 1] ∧
      ([0, 1] : List ℕ) ≠ [1, 2] := by
  refine ⟨?_, by decide⟩
  rw [ndcg_at_k_false, ndcgCore_curve_eq _ 2 (by rw [relSeq_length]; norm_num [exND])]
  rfl

/-- C8 amended.  In curve mode the returned prefix indices are exactly
`0, 1, …, k-1` — 0-based loop indices, index `i` standing for prefix length
`i+1` — with one score per index. -/
theorem claim_C8_amended (ds : List Row) (k : ℤ) (reverse : Bool)
    (h1 : 1 ≤ k) (h2 : k ≤ (ds.length : ℤ)) :
    resThrOf (ndcg_at_k ds k false reverse true).1 = List.range k.toNat ∧
      (resScoresOf (ndcg_at_k ds k false reverse true).1).length = k.toNat := by
  rw [ndcg_at_k_false, ndcgCore_curve_eq _ k (by rw [relSeq_length]; omega)]
  exact ⟨rfl, by simp only [resScoresOf]; exact scoreList_length _ _ _⟩

/-- C8 witness: the amended claim at a concrete batch with `k = 3`. -/
theorem claim_C8_witness :
    resThrOf (ndcg_at_k exND 3 false false true).1 = List.range 3 ∧
      (resScoresOf (ndcg_at_k exND 3 false false true).1).length = 3 :=
  claim_C8_amended exND 3 false (by norm_num) (by norm_num [exND])

/-- The correlation scenario batch: actual `[1,2,3,4]` against predicted
`[4,3,2,1]`. -/
def exSp : List Row := [⟨1, 4, none⟩, ⟨2, 3, none⟩, ⟨3, 2, none⟩, ⟨4, 1, none⟩]

/-- C9.  Spearman correlation of `[1,2,3,4]` against `[4,3,2,1]` is exactly
`-1`. -/
theorem claim_C9 : spearman_ds exSp = -1 := by
  have hx : exSp.map Row.actual = [1, 2, 3, 4] := by norm_num [exSp]
  have hy : exSp.map Row.predicted = [4, 3, 2, 1] := by norm_num [exSp]
  have hrx : ranksOf [1, 2, 3, 4] = [1, 2, 3, 4] := by
    norm_num [ranksOf, rankAvg, List.countP_cons, List.countP_nil]
  have hry : ranksOf [4, 3, 2, 1] = [4, 3, 2, 1] := by
    norm_num [ranksOf, rankAvg, List.countP_cons, List.countP_nil]
  unfold spearman_ds
  rw [hx, hy, hrx, hry]
  unfold pearson
  norm_num [List.zipWith_cons_cons]

/-- C10.  Whenever relevance is nonnegative (automatic under binning, an
explicit hypothesis otherwise), every score any configuration of
`ndcg_at_k` produces lies in `[0, 1]`. -/
theorem claim_C10 (ds : List Row) (k : ℤ) (bins reverse multiple : Bool)
    (hnn : bins = false → ∀ r ∈ ds, 0 ≤ r.actual) :
    ∀ x ∈ resScoresOf (ndcg_at_k ds k bins reverse multiple).1, 0 ≤ x ∧ x ≤ 1 := by
  intro x hx
  cases bins
  · rw [ndcg_at_k_false] at hx
    have hx' := resScoresOf_core_subset _ k multiple x hx
    rcases mem_scoreList _ _ _ x hx' with ⟨i, hik, hxe⟩
    have hy : ∀ v ∈ relSeq ds reverse, 0 ≤ v := by
      intro v hv
      rcases List.mem_map.mp ((relSeq_perm ds reverse).mem_iff.mp hv) with ⟨r, hr, rfl⟩
      exact hnn rfl r hr
    rw [hxe]
    exact score_formula_bounds _ hy (i + 1)
  · rcases hcut : applyCut ds with e | ds'
    · rw [ndcg_at_k_true_err ds k reverse multiple e hcut] at hx
      exact absurd hx (by simp [resScoresOf])
    · rw [ndcg_at_k_true_ok ds ds' k reverse multiple hcut] at hx
      have hx' := resScoresOf_core_subset _ k multiple x hx
      rcases mem_scoreList _ _ _ x hx' with ⟨i, hik, hxe⟩
      have hy : ∀ v ∈ relSeqBinned ds' reverse, 0 ≤ v := by
        intro v hv
        rcases List.mem_map.mp ((relSeqBinned_perm ds' reverse).mem_iff.mp hv)
          with ⟨r, hr, rfl⟩
        rcases (applyCut_ok_facts ds ds' hcut).1 r hr with ⟨g, hg, hg0⟩
        rw [hg]
        simpa using hg0
      rw [hxe]
      exact score_formula_bounds _ hy (i + 1)

/-- C10 witness: the first curve score of the concrete scenario batch lies
in `[0, 1]`. -/
theorem claim_C10_witness :
    0 ≤ (resScoresOf (ndcg_at_k exND 3 false false true).1).getD 0 0 ∧
      (resScoresOf (ndcg_at_k exND 3 false false true).1).getD 0 0 ≤ 1 := by
  have hnn : (false : Bool) = false → ∀ r ∈ exND, 0 ≤ r.actual := by
    intro _ r hr
    simp only [exND, List.mem_cons, List.not_mem_nil, or_false] at hr
    rcases hr with rfl | rfl | rfl <;> norm_num
  have hmem : (resScoresOf (ndcg_at_k exND 3 false false true).1).getD 0 0 ∈
      resScoresOf (ndcg_at_k exND 3 false false true).1 := by
    rw [ndcg_at_k_false, ndcgCore_curve_eq _ 3 (by rw [relSeq_length]; norm_num [exND])]
    simp only [resScoresOf]
    have hlen : 0 < (scoreList (relSeq exND false) (sortValsDesc (relSeq exND false))
        ((3 : ℤ).toNat)).length := by
      rw [scoreList_length]
      norm_num
    rw [List.getD_eq_getElem?_getD, List.getElem?_eq_getElem hlen, Option.getD_some]
    exact List.getElem_mem hlen
  exact claim_C10 exND 3 false false true hnn _ hmem
